import Mathlib

/-!
Verification of the `linreg` linear-regression library (src/lib.rs).

The Rust code is generic over `F: Float`.  We embed the working
floating-point type as exact rationals extended with the IEEE special
values (positive/negative infinity and NaN), so that every arithmetic
step of the source is represented exactly: in particular `0/0 = NaN`
and `q/0 = ±∞`, which the source's "check for divide-by-zero after the
fact" (`slope.is_nan()`) depends on.  Element types (`X, Y: Into<F>`)
are embedded as exact rationals converted by `F.fin`.
-/

/-- The working floating-point type: an exact rational, an infinity
(`neg = true` for `-∞`), or NaN. -/
inductive F where
  | fin (q : ℚ)
  | inf (neg : Bool)
  | nan
deriving DecidableEq, Repr

namespace F

/-- IEEE negation. -/
def neg : F → F
  | fin q => fin (-q)
  | inf s => inf (!s)
  | nan => nan

/-- IEEE addition (exact on finite values). -/
def add : F → F → F
  | nan, _ => nan
  | _, nan => nan
  | fin a, fin b => fin (a + b)
  | inf s, inf t => if s = t then inf s else nan
  | inf s, fin _ => inf s
  | fin _, inf s => inf s

/-- IEEE subtraction: `a - b = a + (-b)`. -/
def sub (a b : F) : F := add a (neg b)

/-- IEEE multiplication (exact on finite values); `0 * ∞ = NaN`. -/
def mul : F → F → F
  | nan, _ => nan
  | _, nan => nan
  | fin a, fin b => fin (a * b)
  | inf s, inf t => inf (xor s t)
  | inf s, fin q => if q = 0 then nan else inf (xor s (decide (q < 0)))
  | fin q, inf s => if q = 0 then nan else inf (xor s (decide (q < 0)))

/-- IEEE division (exact on finite values): `0/0 = NaN`, `a/0 = ±∞`
for `a ≠ 0`, `a/∞ = 0`, `∞/∞ = NaN`. -/
def div : F → F → F
  | nan, _ => nan
  | _, nan => nan
  | fin a, fin b =>
      if b = 0 then (if a = 0 then nan else inf (decide (a < 0)))
      else fin (a / b)
  | fin _, inf _ => fin 0
  | inf s, fin q => inf (xor s (decide (q < 0)))
  | inf _, inf _ => nan

/-- `Float::zero()`. -/
def zero : F := fin 0

/-- `Float::is_nan()`. -/
def isNaN : F → Bool
  | nan => true
  | _ => false

/-- `Float::is_infinite()`. -/
def isInfinite : F → Bool
  | inf _ => true
  | _ => false

/-- A value that is neither NaN nor infinite. -/
def isFinite : F → Bool
  | fin _ => true
  | _ => false

/-- `F::from(n)` for a `usize` count.  In the exact-rational model every
natural number is representable, so the conversion always succeeds; the
`Option` mirrors the fallible `num_traits` interface used by the source
(`F::from(xs.len())?`). -/
def fromNat (n : Nat) : Option F := some (fin (n : ℚ))

end F

/-- `iter.sum()` for floats: sequential left-to-right accumulation
starting from zero. -/
def sumF (l : List F) : F := l.foldl F.add F.zero

/-- `lin_reg` (src/lib.rs lines 57–83): lower-level kernel.  Runs one
pass over the pairs accumulating `xxm2 = Σ(x-x̄)²` and
`xmym2 = Σ(x-x̄)(y-ȳ)`, takes `slope = xmym2 / xxm2`, returns `None`
when the slope is NaN and otherwise `Some (slope, ȳ - slope·x̄)`. -/
def lin_reg (xys : List (F × F)) (x_mean y_mean : F) : Option (F × F) :=
  let acc := xys.foldl
    (fun (a : F × F) (xy : F × F) =>
      (F.add a.1 (F.mul (F.sub xy.1 x_mean) (F.sub xy.1 x_mean)),
       F.add a.2 (F.mul (F.sub xy.1 x_mean) (F.sub xy.2 y_mean))))
    (F.zero, F.zero)
  let slope := F.div acc.2 acc.1
  if slope.isNaN then none
  else some (slope, F.sub y_mean (F.mul slope x_mean))

/-- `linear_regression` (src/lib.rs lines 97–121): two-slice adapter.
Rejects mismatched lengths, computes each mean by a separate pass
(`sum / n`), and calls `lin_reg` on the positionally zipped pairs. -/
def linear_regression (xs ys : List ℚ) : Option (F × F) :=
  if xs.length ≠ ys.length then none
  else
    let x_sum := sumF (xs.map F.fin)
    match F.fromNat xs.length with
    | none => none
    | some n =>
      let x_mean := F.div x_sum n
      let y_sum := sumF (ys.map F.fin)
      let y_mean := F.div y_sum n
      lin_reg ((xs.map F.fin).zip (ys.map F.fin)) x_mean y_mean

/-- `linear_regression_of` (src/lib.rs lines 134–161): paired-slice
adapter.  Rejects the empty slice, computes both sums in one fused fold
over the pairs, divides by the count, and calls `lin_reg` on the
converted pairs. -/
def linear_regression_of (xys : List (ℚ × ℚ)) : Option (F × F) :=
  if xys.isEmpty then none
  else
    match F.fromNat xys.length with
    | none => none
    | some n =>
      let sums := xys.foldl
        (fun (a : F × F) (xy : ℚ × ℚ) =>
          (F.add a.1 (F.fin xy.1), F.add a.2 (F.fin xy.2)))
        (F.zero, F.zero)
      let x_mean := F.div sums.1 n
      let y_mean := F.div sums.2 n
      lin_reg (xys.map (fun xy => (F.fin xy.1, F.fin xy.2))) x_mean y_mean

/-- Modelled from the spec: the Mean Computer `mean(sequence_of_T) ->
Option<F>` is listed in the spec's public surface (§4.1, §6) but is
absent from src/lib.rs.  Per §4.1 it accumulates the sum in `F`
precision by sequential left-to-right addition, divides by the count
cast to `F`, and produces "no value" for the empty sequence. -/
def mean (xs : List ℚ) : Option F :=
  if xs.isEmpty then none
  else
    match F.fromNat xs.length with
    | none => none
    | some n => some (F.div (sumF (xs.map F.fin)) n)

/-! ### Auxiliary sums

`Sxx` and `Sxy` are the mathematical sums of squared and cross
deviations that the kernel's loop accumulates, stated over exact
rationals. -/

/-- `Σ (x - c)²` over a rational list. -/
def Sxx (xs : List ℚ) (c : ℚ) : ℚ := (xs.map fun x => (x - c) * (x - c)).sum

/-- `Σ (x - cx)·(y - cy)` over a list of rational pairs. -/
def Sxy (xys : List (ℚ × ℚ)) (cx cy : ℚ) : ℚ :=
  (xys.map fun p => (p.1 - cx) * (p.2 - cy)).sum

/-- The `xxm2` accumulator of `lin_reg`, as a sum over the pair list. -/
def xxm2 (xys : List (F × F)) (xm : F) : F :=
  sumF (xys.map fun p => F.mul (F.sub p.1 xm) (F.sub p.1 xm))

/-- The `xmym2` accumulator of `lin_reg`, as a sum over the pair list. -/
def xmym2 (xys : List (F × F)) (xm ym : F) : F :=
  sumF (xys.map fun p => F.mul (F.sub p.1 xm) (F.sub p.2 ym))

/-! ### Lemmas about the extended-rational arithmetic -/

@[simp] theorem fin_add (a b : ℚ) : F.add (F.fin a) (F.fin b) = F.fin (a + b) := rfl

@[simp] theorem fin_sub (a b : ℚ) : F.sub (F.fin a) (F.fin b) = F.fin (a - b) := by
  simp [F.sub, F.neg, F.add, sub_eq_add_neg]

@[simp] theorem fin_mul (a b : ℚ) : F.mul (F.fin a) (F.fin b) = F.fin (a * b) := rfl

theorem fin_div (a b : ℚ) (hb : b ≠ 0) :
    F.div (F.fin a) (F.fin b) = F.fin (a / b) := by
  simp [F.div, hb]

theorem fin_div_zero_zero : F.div (F.fin 0) (F.fin 0) = F.nan := by
  simp [F.div]

/-! ### Fold lemmas -/

/-- A fold that updates the two components of a pair independently is
the pair of the two component folds. -/
theorem foldl_pair {α β γ : Type} (l : List α) (f : β → α → β) (g : γ → α → γ)
    (b : β) (c : γ) :
    l.foldl (fun p x => (f p.1 x, g p.2 x)) (b, c) = (l.foldl f b, l.foldl g c) := by
  induction l generalizing b c with
  | nil => rfl
  | cons a t ih => simpa using ih (f b a) (g c a)

/-- Left-to-right `F.add` accumulation of finite values is exact. -/
theorem foldl_addF_fin {α : Type} (l : List α) (h : α → ℚ) (q : ℚ) :
    l.foldl (fun a x => F.add a (F.fin (h x))) (F.fin q) = F.fin (q + (l.map h).sum) := by
  induction l generalizing q with
  | nil => simp
  | cons a t ih => simp [ih, add_assoc]

/-- `iter.sum()` over converted finite values is the exact rational sum. -/
theorem sumF_map_fin (l : List ℚ) : sumF (l.map F.fin) = F.fin l.sum := by
  have h := foldl_addF_fin l id 0
  simpa [sumF, F.zero, List.foldl_map] using h

/-- Zipping two converted lists is converting the zipped list. -/
theorem zip_map_fin (xs ys : List ℚ) :
    (xs.map F.fin).zip (ys.map F.fin)
      = (xs.zip ys).map fun p => (F.fin p.1, F.fin p.2) := by
  induction xs generalizing ys with
  | nil => simp
  | cons a t ih => cases ys with
    | nil => simp
    | cons b u => simp [ih]

/-- A list sum of squares vanishes exactly when every element equals `c`. -/
theorem Sxx_eq_zero_iff (xs : List ℚ) (c : ℚ) :
    Sxx xs c = 0 ↔ ∀ x ∈ xs, x = c := by
  induction xs with
  | nil => simp [Sxx]
  | cons a t ih =>
    have h1 : 0 ≤ (a - c) * (a - c) := mul_self_nonneg _
    have h2 : 0 ≤ (t.map fun x => (x - c) * (x - c)).sum := by
      apply List.sum_nonneg
      intro x hx
      obtain ⟨y, _, rfl⟩ := List.mem_map.1 hx
      exact mul_self_nonneg _
    simp only [Sxx, List.map_cons, List.sum_cons, List.mem_cons]
    rw [add_eq_zero_iff_of_nonneg h1 h2]
    constructor
    · rintro ⟨hhd, htl⟩
      have ha : a = c := by
        have := mul_self_eq_zero.1 hhd
        linarith [sub_eq_zero.1 this]
      exact fun x hx => hx.elim (fun h => h ▸ ha) (fun h => (ih.1 htl) x h)
    · rintro h
      refine ⟨?_, ih.2 fun x hx => h x (Or.inr hx)⟩
      have : a = c := h a (Or.inl rfl)
      simp [this]

/-- If every x-component equals `cx`, the cross sum vanishes. -/
theorem Sxy_eq_zero (xys : List (ℚ × ℚ)) (cx cy : ℚ)
    (h : ∀ p ∈ xys, p.1 = cx) : Sxy xys cx cy = 0 := by
  apply List.sum_eq_zero
  intro x hx
  obtain ⟨p, hp, rfl⟩ := List.mem_map.1 hx
  simp [h p hp]

/-- A list whose elements all equal `c` sums to `length · c`. -/
theorem sum_of_all_eq (l : List ℚ) (c : ℚ) (h : ∀ x ∈ l, x = c) :
    l.sum = l.length * c := by
  induction l with
  | nil => simp
  | cons a t ih =>
    have ha : a = c := h a (List.mem_cons_self a t)
    have ht := ih fun x hx => h x (List.mem_cons_of_mem a hx)
    simp [ha, ht]
    ring

/-! ### Characterization of the kernel and the adapters -/

/-- The kernel's loop computes the two deviation sums `xxm2` and
`xmym2`, and the result is `None` exactly when `xmym2 / xxm2` is NaN. -/
theorem lin_reg_acc (xys : List (F × F)) (xm ym : F) :
    lin_reg xys xm ym =
      if (F.div (xmym2 xys xm ym) (xxm2 xys xm)).isNaN then none
      else some (F.div (xmym2 xys xm ym) (xxm2 xys xm),
        F.sub ym (F.mul (F.div (xmym2 xys xm ym) (xxm2 xys xm)) xm)) := by
  have hsplit := foldl_pair xys
    (fun a xy => F.add a (F.mul (F.sub xy.1 xm) (F.sub xy.1 xm)))
    (fun a xy => F.add a (F.mul (F.sub xy.1 xm) (F.sub xy.2 ym)))
    F.zero F.zero
  simp only [lin_reg, xxm2, xmym2, sumF, List.foldl_map]
  rw [hsplit]

/-- On finite pairs with finite centers, the kernel is exact: it fails
precisely when the squared-deviation sum is zero, and otherwise returns
the exact rational slope and intercept. -/
theorem lin_reg_fin (xys : List (ℚ × ℚ)) (xm ym : ℚ) :
    lin_reg (xys.map fun p => (F.fin p.1, F.fin p.2)) (F.fin xm) (F.fin ym) =
      if Sxx (xys.map Prod.fst) xm = 0 then none
      else some (F.fin (Sxy xys xm ym / Sxx (xys.map Prod.fst) xm),
        F.fin (ym - Sxy xys xm ym / Sxx (xys.map Prod.fst) xm * xm)) := by
  have hxx : xxm2 (xys.map fun p => (F.fin p.1, F.fin p.2)) (F.fin xm)
      = F.fin (Sxx (xys.map Prod.fst) xm) := by
    have hmap : (xys.map fun p => (F.fin p.1, F.fin p.2)).map
        (fun p => F.mul (F.sub p.1 (F.fin xm)) (F.sub p.1 (F.fin xm)))
        = (xys.map fun p => (p.1 - xm) * (p.1 - xm)).map F.fin := by
      simp [List.map_map, Function.comp_def]
    rw [xxm2, hmap, sumF_map_fin, Sxx, List.map_map]
    rfl
  have hxy : xmym2 (xys.map fun p => (F.fin p.1, F.fin p.2)) (F.fin xm) (F.fin ym)
      = F.fin (Sxy xys xm ym) := by
    have hmap : (xys.map fun p => (F.fin p.1, F.fin p.2)).map
        (fun p => F.mul (F.sub p.1 (F.fin xm)) (F.sub p.2 (F.fin ym)))
        = (xys.map fun p => (p.1 - xm) * (p.2 - ym)).map F.fin := by
      simp [List.map_map, Function.comp_def]
    rw [xmym2, hmap, sumF_map_fin, Sxy]
  rw [lin_reg_acc, hxx, hxy]
  by_cases h : Sxx (xys.map Prod.fst) xm = 0
  · have hxyzero : Sxy xys xm ym = 0 := by
      apply Sxy_eq_zero
      intro p hp
      exact (Sxx_eq_zero_iff _ _).1 h p.1 (List.mem_map.2 ⟨p, hp, rfl⟩)
    simp [h, hxyzero, fin_div_zero_zero, F.isNaN]
  · rw [fin_div _ _ h]
    simp [h, F.isNaN]

/-- For nonempty, equal-length inputs, the two-slice adapter passes the
exact means and the converted zipped pairs to the kernel. -/
theorem linear_regression_nonempty (xs ys : List ℚ)
    (hlen : xs.length = ys.length) (hne : xs ≠ []) :
    linear_regression xs ys =
      lin_reg ((xs.zip ys).map fun p => (F.fin p.1, F.fin p.2))
        (F.fin (xs.sum / xs.length)) (F.fin (ys.sum / ys.length)) := by
  have hn : (xs.length : ℚ) ≠ 0 := by
    simpa using hne
  rw [linear_regression]
  rw [if_neg (by simp [hlen])]
  simp only [F.fromNat, sumF_map_fin, zip_map_fin]
  rw [fin_div _ _ hn, fin_div _ _ hn, hlen]

/-- For a nonempty pair list, the paired adapter passes the exact
(fused-pass) means and the converted pairs to the kernel. -/
theorem linear_regression_of_nonempty (xys : List (ℚ × ℚ)) (hne : xys ≠ []) :
    linear_regression_of xys =
      lin_reg (xys.map fun p => (F.fin p.1, F.fin p.2))
        (F.fin ((xys.map Prod.fst).sum / xys.length))
        (F.fin ((xys.map Prod.snd).sum / xys.length)) := by
  have hn : (xys.length : ℚ) ≠ 0 := by
    simpa using hne
  have hfused := foldl_pair xys
    (fun a xy => F.add a (F.fin xy.1)) (fun a xy => F.add a (F.fin xy.2))
    F.zero F.zero
  rw [linear_regression_of]
  rw [if_neg (by simp [List.isEmpty_iff, hne])]
  simp only [F.fromNat]
  rw [hfused]
  have h1 : xys.foldl (fun a xy => F.add a (F.fin xy.1)) F.zero
      = F.fin ((xys.map Prod.fst).sum) := by
    have := foldl_addF_fin xys Prod.fst 0
    simpa [F.zero] using this
  have h2 : xys.foldl (fun a xy => F.add a (F.fin xy.2)) F.zero
      = F.fin ((xys.map Prod.snd).sum) := by
    have := foldl_addF_fin xys Prod.snd 0
    simpa [F.zero] using this
  rw [h1, h2, fin_div _ _ hn, fin_div _ _ hn]

/-- The two-slice adapter on two empty slices: the length guard passes,
the means are `0/0 = NaN`, and the kernel's NaN check rejects. -/
theorem linear_regression_nil : linear_regression ([] : List ℚ) [] = none := by
  norm_num [linear_regression, lin_reg, sumF, F.fromNat, F.add, F.mul, F.sub,
    F.div, F.neg, F.zero, F.isNaN, List.foldl]

/-! ### Claims -/

/-- C1: For the canonical dataset `xs=[1,2,3,4,5]`, `ys=[2,4,5,4,5]`,
both `linear_regression` and `linear_regression_of` of the corresponding
pair list return `Some (0.6, 2.2)` exactly. -/
theorem canonical_dataset_result :
    linear_regression [1, 2, 3, 4, 5] [2, 4, 5, 4, 5]
      = some (F.fin 0.6, F.fin 2.2)
    ∧ linear_regression_of [(1, 2), (2, 4), (3, 5), (4, 4), (5, 5)]
      = some (F.fin 0.6, F.fin 2.2) := by
  constructor
  · norm_num [linear_regression, lin_reg, sumF, F.fromNat, F.add, F.mul, F.sub,
      F.div, F.neg, F.zero, F.isNaN, List.foldl]
  · norm_num [linear_regression_of, lin_reg, sumF, F.fromNat, F.add, F.mul,
      F.sub, F.div, F.neg, F.zero, F.isNaN, List.foldl]

/-- C2: the kernel accumulates `xxm2 = Σ(x-x̄)²` and
`xmym2 = Σ(x-x̄)(y-ȳ)`; when `slope = xmym2/xxm2` is not NaN it returns
`Some (slope, ȳ - slope·x̄)`, otherwise `None`. -/
theorem lin_reg_spec (xys : List (F × F)) (xm ym : F) :
    lin_reg xys xm ym =
      if (F.div (xmym2 xys xm ym) (xxm2 xys xm)).isNaN then none
      else some (F.div (xmym2 xys xm ym) (xxm2 xys xm),
        F.sub ym (F.mul (F.div (xmym2 xys xm ym) (xxm2 xys xm)) xm)) :=
  lin_reg_acc xys xm ym

/-- C5: mismatched-length slices make `linear_regression` return `None`. -/
theorem length_mismatch_none (xs ys : List ℚ) (h : xs.length ≠ ys.length) :
    linear_regression xs ys = none := by
  rw [linear_regression, if_pos h]

/-- C5 witness at `xs = [1]`, `ys = []`. -/
theorem length_mismatch_none_witness :
    ([1] : List ℚ).length ≠ ([] : List ℚ).length
    ∧ linear_regression [1] ([] : List ℚ) = none :=
  ⟨by decide, length_mismatch_none [1] [] (by decide)⟩

/-- C6: empty input yields `None`: `linear_regression` whenever `xs` or
`ys` is empty, and `linear_regression_of` on the empty pair slice. -/
theorem empty_input_none (xs ys : List ℚ) :
    ((xs = [] ∨ ys = []) → linear_regression xs ys = none)
    ∧ linear_regression_of ([] : List (ℚ × ℚ)) = none := by
  constructor
  · rintro (rfl | rfl)
    · cases ys with
      | nil => exact linear_regression_nil
      | cons b u => rw [linear_regression, if_pos (by simp)]
    · cases xs with
      | nil => exact linear_regression_nil
      | cons a t => rw [linear_regression, if_pos (by simp)]
  · rfl

/-- C6 witness at `xs = []`, `ys = [1]`. -/
theorem empty_input_none_witness :
    (([] : List ℚ) = [] ∨ ([1] : List ℚ) = [])
    ∧ linear_regression ([] : List ℚ) [1] = none
    ∧ linear_regression_of ([] : List (ℚ × ℚ)) = none :=
  ⟨Or.inl rfl, (empty_input_none [] [1]).1 (Or.inl rfl), (empty_input_none [] [1]).2⟩

/-- C9: the public `mean` returns the arithmetic mean of a nonempty
sequence (`mean [5,8,12,17] = 10.5` exactly) and `None` on the empty
sequence. -/
theorem mean_spec :
    (∀ xs : List ℚ, xs ≠ [] → mean xs = some (F.fin (xs.sum / xs.length)))
    ∧ mean [5, 8, 12, 17] = some (F.fin 10.5)
    ∧ mean ([] : List ℚ) = none := by
  refine ⟨?_, ?_, rfl⟩
  · intro xs hne
    have hn : (xs.length : ℚ) ≠ 0 := by simpa using hne
    rw [mean, if_neg (by simp [List.isEmpty_iff, hne])]
    simp only [F.fromNat, sumF_map_fin]
    rw [fin_div _ _ hn]
  · norm_num [mean, sumF, F.fromNat, F.add, F.div, F.zero, List.foldl]

/-- C9 witness at `xs = [1, 3]`. -/
theorem mean_spec_witness :
    ([1, 3] : List ℚ) ≠ []
    ∧ mean [1, 3] = some (F.fin (([1, 3] : List ℚ).sum / ([1, 3] : List ℚ).length)) :=
  ⟨by decide, mean_spec.1 [1, 3] (by decide)⟩

/-- C10: the kernel on an empty iterator returns `None` for every pair
of means: both accumulators stay zero, `0/0` is NaN, and the NaN check
rejects it. -/
theorem lin_reg_empty_none (xm ym : F) : lin_reg [] xm ym = none := by
  rw [lin_reg_acc]
  simp [xxm2, xmym2, sumF, F.zero, F.div, F.isNaN]

/-- Mean of a nonempty constant list is the constant. -/
theorem mean_of_all_eq (xs : List ℚ) (c : ℚ) (hne : xs ≠ [])
    (h : ∀ x ∈ xs, x = c) : xs.sum / xs.length = c := by
  have hn : (xs.length : ℚ) ≠ 0 := by simpa using hne
  rw [sum_of_all_eq xs c h]
  field_simp

/-- Sum of values on an affine line. -/
theorem map_affine_sum (xs : List ℚ) (m b : ℚ) :
    (xs.map fun x => m * x + b).sum = m * xs.sum + xs.length * b := by
  induction xs with
  | nil => simp
  | cons a t ih =>
    simp only [List.map_cons, List.sum_cons, List.length_cons, ih]
    push_cast
    ring

/-- Zipping a list with its own image pairs each element with its image. -/
theorem zip_self_map {α β : Type} (xs : List α) (f : α → β) :
    xs.zip (xs.map f) = xs.map fun x => (x, f x) := by
  induction xs with
  | nil => rfl
  | cons a t ih => simp [ih]

/-- Cross sum against an exact affine fit is `m` times the squared sum. -/
theorem Sxy_affine (xs : List ℚ) (m b xm : ℚ) :
    Sxy (xs.map fun x => (x, m * x + b)) xm (m * xm + b) = m * Sxx xs xm := by
  induction xs with
  | nil => simp [Sxy, Sxx]
  | cons a t ih =>
    simp only [Sxy, Sxx, List.map_cons, List.map_map, List.sum_cons] at ih ⊢
    linear_combination ih

/-- C3: for equal-length slices, the two-slice form agrees exactly with
the paired form on the positionally zipped pairs. -/
theorem two_forms_agree (xs ys : List ℚ) (hlen : xs.length = ys.length) :
    linear_regression xs ys = linear_regression_of (xs.zip ys) := by
  cases xs with
  | nil =>
    have hys : ys = [] := by
      cases ys with
      | nil => rfl
      | cons b u => simp at hlen
    subst hys
    rw [linear_regression_nil]
    rfl
  | cons a t =>
    have hne : (a :: t : List ℚ) ≠ [] := by simp
    have hzne : (a :: t).zip ys ≠ [] := by
      cases ys with
      | nil => simp at hlen
      | cons b u => simp
    rw [linear_regression_nonempty _ _ hlen hne,
      linear_regression_of_nonempty _ hzne,
      List.map_fst_zip _ _ (le_of_eq hlen),
      List.map_snd_zip _ _ (le_of_eq hlen.symm),
      List.length_zip, hlen, min_self]

/-- C3 witness at `xs = [1, 2]`, `ys = [3, 4]`. -/
theorem two_forms_agree_witness :
    ([1, 2] : List ℚ).length = ([3, 4] : List ℚ).length
    ∧ linear_regression [1, 2] [3, 4]
      = linear_regression_of (([1, 2] : List ℚ).zip [3, 4]) :=
  ⟨rfl, two_forms_agree [1, 2] [3, 4] rfl⟩

/-- C4: any nonempty input whose x-values are all identical (including
a single point) makes both `linear_regression` and
`linear_regression_of` return `None`. -/
theorem constant_x_none (xs ys : List ℚ) (xys : List (ℚ × ℚ))
    (hxs : xs ≠ []) (hallx : ∀ a ∈ xs, ∀ c ∈ xs, a = c)
    (hxys : xys ≠ []) (hallp : ∀ p ∈ xys, ∀ q ∈ xys, p.1 = q.1) :
    linear_regression xs ys = none ∧ linear_regression_of xys = none := by
  constructor
  · by_cases hlen : xs.length = ys.length
    · obtain ⟨a, t, rfl⟩ : ∃ a t, xs = a :: t := by
        cases xs with
        | nil => exact absurd rfl hxs
        | cons a t => exact ⟨a, t, rfl⟩
      have hall : ∀ x ∈ (a :: t), x = a := fun x hx => hallx x hx a (by simp)
      rw [linear_regression_nonempty _ _ hlen hxs, lin_reg_fin,
        List.map_fst_zip _ _ (le_of_eq hlen),
        mean_of_all_eq _ a hxs hall,
        if_pos ((Sxx_eq_zero_iff _ _).2 hall)]
    · rw [linear_regression, if_pos hlen]
  · obtain ⟨p, rest, rfl⟩ : ∃ p rest, xys = p :: rest := by
      cases xys with
      | nil => exact absurd rfl hxys
      | cons p rest => exact ⟨p, rest, rfl⟩
    have hall : ∀ x ∈ (p :: rest).map Prod.fst, x = p.1 := by
      intro x hx
      obtain ⟨q, hq, rfl⟩ := List.mem_map.1 hx
      exact hallp q hq p (by simp)
    have hmean : ((p :: rest).map Prod.fst).sum / (((p :: rest).length : ℚ))
        = p.1 := by
      have := mean_of_all_eq ((p :: rest).map Prod.fst) p.1 (by simp) hall
      simpa [List.length_map] using this
    rw [linear_regression_of_nonempty _ hxys, lin_reg_fin, hmean,
      if_pos ((Sxx_eq_zero_iff _ _).2 hall)]

/-- C4 witness at `xs = [1, 1]`, `ys = [2, 3]`, `xys = [(1,2), (1,3)]`. -/
theorem constant_x_none_witness :
    ([1, 1] : List ℚ) ≠ []
    ∧ (∀ a ∈ ([1, 1] : List ℚ), ∀ c ∈ ([1, 1] : List ℚ), a = c)
    ∧ ([((1 : ℚ), (2 : ℚ)), (1, 3)] : List (ℚ × ℚ)) ≠ []
    ∧ (∀ p ∈ ([((1 : ℚ), (2 : ℚ)), (1, 3)] : List (ℚ × ℚ)),
        ∀ q ∈ ([((1 : ℚ), (2 : ℚ)), (1, 3)] : List (ℚ × ℚ)), p.1 = q.1)
    ∧ linear_regression [1, 1] [2, 3] = none
    ∧ linear_regression_of [((1 : ℚ), (2 : ℚ)), (1, 3)] = none := by
  refine ⟨by decide, by decide, by decide, by decide, ?_⟩
  exact constant_x_none [1, 1] [2, 3] [((1 : ℚ), (2 : ℚ)), (1, 3)]
    (by decide) (by decide) (by decide) (by decide)

/-- C7: whenever either entry point returns a result, the input was
nonempty, the lengths matched (two-slice form), the element count was
representable in `F`, and the returned slope is neither NaN nor
infinite. -/
theorem result_invariant (xs ys : List ℚ) (xys : List (ℚ × ℚ)) (s i s2 i2 : F) :
    (linear_regression xs ys = some (s, i) →
      xs ≠ [] ∧ ys ≠ [] ∧ xs.length = ys.length
      ∧ (F.fromNat xs.length).isSome ∧ s.isNaN = false ∧ s.isInfinite = false)
    ∧ (linear_regression_of xys = some (s2, i2) →
      xys ≠ [] ∧ (F.fromNat xys.length).isSome
      ∧ s2.isNaN = false ∧ s2.isInfinite = false) := by
  constructor
  · intro h
    by_cases hlen : xs.length = ys.length
    · cases xs with
      | nil =>
        have hys : ys = [] := by
          cases ys with
          | nil => rfl
          | cons b u => simp at hlen
        subst hys
        rw [linear_regression_nil] at h
        cases h
      | cons a t =>
        have hne : (a :: t : List ℚ) ≠ [] := by simp
        have hyne : ys ≠ [] := by
          cases ys with
          | nil => simp at hlen
          | cons b u => simp
        refine ⟨hne, hyne, hlen, rfl, ?_, ?_⟩ <;>
        · rw [linear_regression_nonempty _ _ hlen hne, lin_reg_fin] at h
          by_cases hS : Sxx ((((a :: t).zip ys)).map Prod.fst)
              ((a :: t).sum / ((a :: t).length : ℚ)) = 0
          · rw [if_pos hS] at h
            cases h
          · rw [if_neg hS] at h
            obtain ⟨hs, -⟩ := Prod.mk.inj (Option.some.inj h)
            rw [← hs]
            rfl
    · rw [linear_regression, if_pos hlen] at h
      cases h
  · intro h
    cases xys with
    | nil => cases h
    | cons p rest =>
      have hne : (p :: rest : List (ℚ × ℚ)) ≠ [] := by simp
      refine ⟨hne, rfl, ?_, ?_⟩ <;>
      · rw [linear_regression_of_nonempty _ hne, lin_reg_fin] at h
        by_cases hS : Sxx ((p :: rest).map Prod.fst)
            (((p :: rest).map Prod.fst).sum / (((p :: rest).length : ℚ))) = 0
        · rw [if_pos hS] at h
          cases h
        · rw [if_neg hS] at h
          obtain ⟨hs, -⟩ := Prod.mk.inj (Option.some.inj h)
          rw [← hs]
          rfl

/-- C7 witness at the canonical dataset. -/
theorem result_invariant_witness :
    linear_regression [1, 2, 3, 4, 5] [2, 4, 5, 4, 5]
      = some (F.fin 0.6, F.fin 2.2)
    ∧ linear_regression_of [(1, 2), (2, 4), (3, 5), (4, 4), (5, 5)]
      = some (F.fin 0.6, F.fin 2.2)
    ∧ (([1, 2, 3, 4, 5] : List ℚ) ≠ [] ∧ ([2, 4, 5, 4, 5] : List ℚ) ≠ []
      ∧ ([1, 2, 3, 4, 5] : List ℚ).length = ([2, 4, 5, 4, 5] : List ℚ).length
      ∧ (F.fromNat ([1, 2, 3, 4, 5] : List ℚ).length).isSome
      ∧ (F.fin 0.6).isNaN = false ∧ (F.fin 0.6).isInfinite = false)
    ∧ (([(1, 2), (2, 4), (3, 5), (4, 4), (5, 5)] : List (ℚ × ℚ)) ≠ []
      ∧ (F.fromNat ([(1, 2), (2, 4), (3, 5), (4, 4), (5, 5)] : List (ℚ × ℚ)).length).isSome
      ∧ (F.fin 0.6).isNaN = false ∧ (F.fin 0.6).isInfinite = false) := by
  have h1 : linear_regression [1, 2, 3, 4, 5] [2, 4, 5, 4, 5]
      = some (F.fin 0.6, F.fin 2.2) := by
    norm_num [linear_regression, lin_reg, sumF, F.fromNat, F.add, F.mul, F.sub,
      F.div, F.neg, F.zero, F.isNaN, List.foldl]
  have h2 : linear_regression_of [(1, 2), (2, 4), (3, 5), (4, 4), (5, 5)]
      = some (F.fin 0.6, F.fin 2.2) := by
    norm_num [linear_regression_of, lin_reg, sumF, F.fromNat, F.add, F.mul,
      F.sub, F.div, F.neg, F.zero, F.isNaN, List.foldl]
  exact ⟨h1, h2,
    (result_invariant [1, 2, 3, 4, 5] [2, 4, 5, 4, 5]
      [(1, 2), (2, 4), (3, 5), (4, 4), (5, 5)] (F.fin 0.6) (F.fin 2.2)
      (F.fin 0.6) (F.fin 2.2)).1 h1,
    (result_invariant [1, 2, 3, 4, 5] [2, 4, 5, 4, 5]
      [(1, 2), (2, 4), (3, 5), (4, 4), (5, 5)] (F.fin 0.6) (F.fin 2.2)
      (F.fin 0.6) (F.fin 2.2)).2 h2⟩

/-- C8: on any `xs` whose values are not all identical and
`ys[i] = m·xs[i] + b`, `linear_regression` recovers `(m, b)` exactly,
so refitting data regenerated from a fitted line is idempotent. -/
theorem perfect_fit_exact (xs : List ℚ) (m b : ℚ)
    (h : ¬ ∀ a ∈ xs, ∀ c ∈ xs, a = c) :
    linear_regression xs (xs.map fun x => m * x + b)
      = some (F.fin m, F.fin b) := by
  have hne : xs ≠ [] := by
    rintro rfl
    exact h (by simp)
  have hn : (xs.length : ℚ) ≠ 0 := by simpa using hne
  have hlen : xs.length = (xs.map fun x => m * x + b).length := by simp
  rw [linear_regression_nonempty _ _ hlen hne, zip_self_map, lin_reg_fin]
  have hfst : (xs.map fun x => (x, m * x + b)).map Prod.fst = xs := by
    simp [List.map_map, Function.comp_def]
  rw [hfst]
  have hym : ((xs.map fun x => m * x + b).sum : ℚ)
      / (((xs.map fun x => m * x + b).length : ℕ) : ℚ)
      = m * (xs.sum / xs.length) + b := by
    rw [map_affine_sum, List.length_map]
    field_simp
    ring
  rw [hym, Sxy_affine]
  have hS : Sxx xs (xs.sum / xs.length) ≠ 0 := by
    intro h0
    apply h
    intro a ha c hc
    rw [(Sxx_eq_zero_iff _ _).1 h0 a ha, (Sxx_eq_zero_iff _ _).1 h0 c hc]
  rw [if_neg hS, mul_div_assoc, div_self hS, mul_one]
  have hb : m * (xs.sum / xs.length) + b - m * (xs.sum / xs.length) = b := by
    ring
  rw [hb]

/-- C8 witness at `xs = [0, 1, 2]`, `m = 2`, `b = 3` (so `ys = [3, 5, 7]`). -/
theorem perfect_fit_exact_witness :
    (¬ ∀ a ∈ ([0, 1, 2] : List ℚ), ∀ c ∈ ([0, 1, 2] : List ℚ), a = c)
    ∧ linear_regression [0, 1, 2] (([0, 1, 2] : List ℚ).map fun x => 2 * x + 3)
      = some (F.fin 2, F.fin 3) :=
  ⟨by decide, perfect_fit_exact [0, 1, 2] 2 3 (by decide)⟩
